import Mathlib

/-!
# Verification of the speaker-diarization alignment core (`backend/diarizer.py`)

This file gives a shallow embedding, in Lean 4, of the transcript/diarization
alignment logic of `SpeakerDiarizer.diarize_transcript` and
`SpeakerDiarizer._heuristic_diarization`, and proves (or refutes) the frozen
specification claims about it.

Modelling conventions:
* Python floats are modelled by `ℚ` (all the arithmetic involved is exact
  field arithmetic: `max`, `min`, subtraction, halving, absolute value).
* A transcript entry is modelled by `Entry`, the shape produced by
  `enhanced_transcriber.transcribe_file` (`formatted_segments`): keys
  `start`, `end`, `text`, `confidence`, `words`, plus the `speaker` slot that
  diarization fills in.  Dictionary reads of keys absent from that shape
  (`entry.get("start_time", 0)`, `entry.get("chunk_duration", 0)` in
  `_heuristic_diarization`) evaluate to their defaults and are embedded as
  the corresponding constants.
* The Python `dict` used to accumulate per-speaker overlap is modelled as an
  insertion-ordered association list (`List (String × ℚ)`), exactly the
  iteration order `max(d.items(), key=...)` sees.
* `max(items, key=lambda x: x[1])` keeps the first maximal item; `pyMaxBySnd`
  mirrors that.
* Output dictionaries come in two shapes: `entry.copy()` with the `speaker`
  key set, and the freshly built sub-segment dict of the split path; the
  inductive `OutEntry` has one constructor per shape.
-/

namespace QuickQuotes

/-- A word-level timestamp record as produced by the recognizer:
`{"word": ..., "start": ..., "end": ..., "probability": ...}`. -/
structure Word where
  word : String
  start : ℚ
  «end» : ℚ
  probability : ℚ
deriving DecidableEq, Repr, Inhabited

/-- One diarization turn `(start, end, speaker)` as produced by
`diarize_audio_file` / passed as `diarization_segments`. -/
structure DiarizationTurn where
  start : ℚ
  «end» : ℚ
  speaker : String
deriving DecidableEq, Repr, Inhabited

/-- A transcript entry in the recognizer's `formatted_segments` shape:
`{"start", "end", "text", "confidence", "words"}`, plus the `speaker`
slot that diarization fills in (input entries may carry a placeholder). -/
structure Entry where
  start : ℚ
  «end» : ℚ
  text : String
  confidence : ℚ
  words : List Word
  speaker : String
deriving DecidableEq, Repr, Inhabited

/-- A word together with the speaker chosen for it: the dict
`{"word", "start", "end", "speaker", "probability"}` built in the
word-assignment loop. -/
structure AttributedWord where
  word : String
  start : ℚ
  «end» : ℚ
  speaker : String
  probability : ℚ
deriving DecidableEq, Repr, Inhabited

/-- An output transcript entry.  `copy e sp` is `entry.copy()` with
`entry["speaker"] = sp`; `sub` is the freshly created sub-segment dict of
the split path (`{"speaker", "start", "end", "text", "words"}`). -/
inductive OutEntry where
  | copy (e : Entry) (speaker : String)
  | sub (speaker : String) (start : ℚ) («end» : ℚ) (text : String)
      (words : List AttributedWord)
deriving DecidableEq, Repr, Inhabited

/-- The `speaker` field of an output entry. -/
def OutEntry.speaker : OutEntry → String
  | .copy _ sp => sp
  | .sub sp _ _ _ _ => sp

/-- The `start` field of an output entry. -/
def OutEntry.start : OutEntry → ℚ
  | .copy e _ => e.start
  | .sub _ s _ _ _ => s

/-- The `end` field of an output entry. -/
def OutEntry.endT : OutEntry → ℚ
  | .copy e _ => e.«end»
  | .sub _ _ e _ _ => e

/-- The `text` field of an output entry. -/
def OutEntry.text : OutEntry → String
  | .copy e _ => e.text
  | .sub _ _ _ t _ => t

/-- Identification key of a word record: its token text and interval.
Used to compare the raw words of a copied entry with attributed words. -/
def wordKey (w : Word) : String × ℚ × ℚ := (w.word, w.start, w.«end»)

/-- Identification key of an attributed word. -/
def awKey (w : AttributedWord) : String × ℚ × ℚ := (w.word, w.start, w.«end»)

/-- The word list stored under the `"words"` key of an output entry,
reduced to identification keys (a copied entry keeps its raw `Word`
records; a split sub-segment stores `AttributedWord` records). -/
def OutEntry.wordKeys : OutEntry → List (String × ℚ × ℚ)
  | .copy e _ => e.words.map wordKey
  | .sub _ _ _ _ ws => ws.map awKey

/-- The expression `max(0, min(a_end, b_end) - max(a_start, b_start))` — the overlap
duration of two intervals (`overlap_duration` computation in the source). -/
def overlapDuration (aS aE bS bE : ℚ) : ℚ := max 0 (min aE bE - max aS bS)

/-- Model of `speaker_overlaps[speaker] = speaker_overlaps.get(speaker, 0) + d`:
update the insertion-ordered association list modelling the Python dict. -/
def addOverlap : List (String × ℚ) → String → ℚ → List (String × ℚ)
  | [], sp, d => [(sp, d)]
  | p :: rest, sp, d =>
      if p.1 = sp then (p.1, p.2 + d) :: rest else p :: addOverlap rest sp d

/-- The `speaker_overlaps` dict built for the interval `(wS, wE)`: for each
turn, the positive overlap durations are accumulated per speaker label,
in dict insertion order. -/
def speakerOverlaps (wS wE : ℚ) (segments : List DiarizationTurn) :
    List (String × ℚ) :=
  segments.foldl
    (fun acc t =>
      let d := overlapDuration wS wE t.start t.«end»
      if 0 < d then addOverlap acc t.speaker d else acc)
    []

/-- Python `max(items, key=lambda x: x[1])`: the first item with maximal second
component (CPython `max` replaces the running best only on strict
improvement), `none` on an empty list (where Python would raise). -/
def pyMaxBySnd : List (String × ℚ) → Option (String × ℚ)
  | [] => none
  | p :: rest =>
      some (rest.foldl (fun best x => if best.2 < x.2 then x else best) p)

/-- One iteration of the nearest-turn loop: keep the current
`(min_distance, nearest_speaker)` pair unless this turn's center is
strictly closer; the initial `min_distance = inf` (here `none`) is beaten
by any turn. -/
def nearestStep (wCenter : ℚ) (acc : Option (ℚ × String))
    (t : DiarizationTurn) : Option (ℚ × String) :=
  let d := |wCenter - (t.start + t.«end») / 2|
  match acc with
  | none => some (d, t.speaker)
  | some md => if d < md.1 then some (d, t.speaker) else some md

/-- The nearest-turn-by-center fallback: fold over the turns keeping the
strictly smallest distance from `wCenter` to a turn center, starting from
`min_distance = inf` / `nearest_speaker = "Unknown"`. -/
def nearestSpeaker (wCenter : ℚ) (segments : List DiarizationTurn) : String :=
  match segments.foldl (nearestStep wCenter) none with
  | some md => md.2
  | none => "Unknown"

/-- The `best_speaker` computation for the interval `(wS, wE)`: maximal
accumulated positive overlap if any, else nearest turn by center distance. -/
def assignSpeaker (segments : List DiarizationTurn) (wS wE : ℚ) : String :=
  match pyMaxBySnd (speakerOverlaps wS wE segments) with
  | some p => p.1
  | none => nearestSpeaker ((wS + wE) / 2) segments

/-- One iteration of the word-assignment loop: the attributed-word dict
appended to `word_speakers`. -/
def attributeWord (segments : List DiarizationTurn) (w : Word) :
    AttributedWord :=
  ⟨w.word, w.start, w.«end», assignSpeaker segments w.start w.«end»,
    w.probability⟩

/-- The `all_words` list: flatten the entries' word lists; an entry without word data
contributes one dummy word spanning the entry with the entry's text and
confidence. -/
def allWords (transcript : List Entry) : List Word :=
  transcript.flatMap fun e =>
    if e.words ≠ [] then e.words else [⟨e.text, e.start, e.«end», e.confidence⟩]

/-- The `word_speakers` list: every flattened word with its assigned speaker. -/
def wordSpeakers (transcript : List Entry)
    (segments : List DiarizationTurn) : List AttributedWord :=
  (allWords transcript).map (attributeWord segments)

/-- The `segment_words` selection: the attributed words whose interval strictly overlaps
the entry interval (`w["end"] > entry_start and w["start"] < entry_end`). -/
def selectWords (ws : List AttributedWord) (eS eE : ℚ) :
    List AttributedWord :=
  ws.filter fun w => decide (eS < w.«end») && decide (w.start < eE)

/-- Model of `list(set(...))` applied to the selected words' speakers: the distinct
labels (the code only uses the length, and the sole element when the
length is 1, so the set's iteration order is irrelevant). -/
def distinctSpeakers : List String → List String
  | [] => []
  | s :: rest =>
      let d := distinctSpeakers rest
      if s ∈ d then d else s :: d

/-- The run-splitting loop of the split path: `curWords` is the current
same-speaker run (always nonempty), flushed whenever the speaker changes
and once more after the loop. -/
def runsLoop (curSpeaker : String) (curWords : List AttributedWord) :
    List AttributedWord → List (List AttributedWord)
  | [] => [curWords]
  | w :: rest =>
      if w.speaker ≠ curSpeaker then
        curWords :: runsLoop w.speaker [w] rest
      else
        runsLoop curSpeaker (curWords ++ [w]) rest

/-- The maximal consecutive same-speaker runs of a word list, in order. -/
def runs : List AttributedWord → List (List AttributedWord)
  | [] => []
  | w :: rest => runsLoop w.speaker [w] rest

/-- The characters Python's `str.strip()` removes (ASCII whitespace; the
tokens at hand only ever carry these). -/
def isPySpace (c : Char) : Bool :=
  c = ' ' || c = '\t' || c = '\n' || c = '\r' || c = '\x0b' || c = '\x0c'

/-- Python `text.strip()`: drop leading and trailing whitespace. -/
def pyStrip (s : String) : String :=
  ⟨((s.data.dropWhile isPySpace).reverse.dropWhile isPySpace).reverse⟩

/-- The sub-segment dict built when a run is flushed: speaker of the run,
first word's start, last word's end, stripped concatenation of the word
tokens, and the run's words. -/
def runToEntry (run : List AttributedWord) : OutEntry :=
  .sub (run.headD default).speaker (run.headD default).start
    (run.getLastD default).«end»
    (pyStrip (String.join (run.map (fun w => w.word))))
    run

/-- The per-entry body of the hybrid loop: select the overlapping attributed
words; empty selection keeps the entry with speaker `"Unknown"`, a single
distinct speaker keeps the entry with that speaker, several distinct
speakers split the selection into runs. -/
def processEntry (ws : List AttributedWord) (e : Entry) : List OutEntry :=
  let segmentWords := selectWords ws e.start e.«end»
  if segmentWords = [] then [.copy e "Unknown"]
  else
    let speakersInSegment := distinctSpeakers (segmentWords.map (fun w => w.speaker))
    if speakersInSegment.length = 1 then
      [.copy e (speakersInSegment.headD "Unknown")]
    else
      (runs segmentWords).map runToEntry

/-- The word-level hybrid strategy (`has_words` branch): attribute every
flattened word, then walk the entries. -/
def wordLevelDiarization (transcript : List Entry)
    (segments : List DiarizationTurn) : List OutEntry :=
  transcript.flatMap (processEntry (wordSpeakers transcript segments))

/-- The per-entry `best_speaker` computation of the segment-level fallback:
maximal accumulated positive overlap against the entry's own interval, and
`"Unknown"` when the overlap dict stays empty (no nearest-neighbor rescue
at this granularity). -/
def segmentBestSpeaker (segments : List DiarizationTurn) (eS eE : ℚ) :
    String :=
  match pyMaxBySnd (speakerOverlaps eS eE segments) with
  | some p => p.1
  | none => "Unknown"

/-- The segment-level fallback strategy (no word timestamps): each entry is
copied with the speaker of maximal accumulated overlap. -/
def segmentLevelDiarization (transcript : List Entry)
    (segments : List DiarizationTurn) : List OutEntry :=
  transcript.map fun e => .copy e (segmentBestSpeaker segments e.start e.«end»)

/-- The toggle `"Speaker 2" if current_speaker == "Speaker 1" else "Speaker 1"`. -/
def toggleSpeaker (s : String) : String :=
  if s = "Speaker 1" then "Speaker 2" else "Speaker 1"

/-- The heuristic loop.  The source reads `entry.get("start_time", 0)` and
`entry.get("chunk_duration", 0)`; entries in the transcriber's
`formatted_segments` shape carry neither key, so both reads produce the
default `0`, embedded here as the constants they evaluate to. -/
def heuristicLoop (currentSpeaker : String) (lastEndTime : ℚ) :
    List Entry → List OutEntry
  | [] => []
  | e :: rest =>
      let startTime : ℚ := 0
      let chunkDuration : ℚ := 0
      let sp :=
        if 2 < startTime - lastEndTime then toggleSpeaker currentSpeaker
        else currentSpeaker
      .copy e sp :: heuristicLoop sp (startTime + chunkDuration) rest

/-- Entry point `_heuristic_diarization`: start from `"Speaker 1"`, `last_end_time = 0`. -/
def heuristicDiarization (transcript : List Entry) : List OutEntry :=
  heuristicLoop "Speaker 1" 0 transcript

/-- Check `any("words" in entry and entry["words"] for entry in transcript)`. -/
def hasWords (transcript : List Entry) : Bool :=
  transcript.any fun e => !e.words.isEmpty

/-- Dispatch of `diarize_transcript` with pre-calculated diarization segments: empty
transcript yields `[]`; no segments selects the heuristic; otherwise the
word-level hybrid when some entry has word data, else the segment-level
fallback. -/
def diarizeTranscript (transcript : List Entry)
    (segments : List DiarizationTurn) : List OutEntry :=
  if transcript = [] then []
  else if segments = [] then heuristicDiarization transcript
  else if hasWords transcript then wordLevelDiarization transcript segments
  else segmentLevelDiarization transcript segments

/-- Total overlap the interval `(wS, wE)` accumulates for the speaker label
`sp`: the sum of its overlap with every turn carrying that label. -/
def accumulatedOverlap (wS wE : ℚ) (segments : List DiarizationTurn)
    (sp : String) : ℚ :=
  ((segments.filter fun t => t.speaker = sp).map
    fun t => overlapDuration wS wE t.start t.«end»).sum

/-- The speaker labels with positive overlap against `(wS, wE)`, in order of
first positive contribution — the key insertion order of the
`speaker_overlaps` dict. -/
def positiveSpeakers (wS wE : ℚ) : List DiarizationTurn → List String
  | [] => []
  | t :: rest =>
      if 0 < overlapDuration wS wE t.start t.«end» then
        t.speaker :: (positiveSpeakers wS wE rest).filter (fun s => s ≠ t.speaker)
      else
        positiveSpeakers wS wE rest

/-- Index of the first turn with label `sp` and positive overlap against
`(wS, wE)` — the point in turn order where the dict first acquires the
key `sp`. -/
def firstPositiveIdx (wS wE : ℚ) (segments : List DiarizationTurn)
    (sp : String) : ℕ :=
  segments.findIdx fun t =>
    decide (t.speaker = sp) && decide (0 < overlapDuration wS wE t.start t.«end»)

/-! ## Basic lemmas about overlap accumulation -/

theorem overlapDuration_nonneg (aS aE bS bE : ℚ) :
    0 ≤ overlapDuration aS aE bS bE :=
  le_max_left _ _

@[simp] theorem accumulatedOverlap_nil (wS wE : ℚ) (sp : String) :
    accumulatedOverlap wS wE [] sp = 0 := rfl

@[simp] theorem accumulatedOverlap_cons (wS wE : ℚ) (t : DiarizationTurn)
    (rest : List DiarizationTurn) (sp : String) :
    accumulatedOverlap wS wE (t :: rest) sp =
      (if t.speaker = sp then overlapDuration wS wE t.start t.«end» else 0)
        + accumulatedOverlap wS wE rest sp := by
  by_cases h : t.speaker = sp <;>
    simp [accumulatedOverlap, List.filter_cons, h]

theorem accumulatedOverlap_append (wS wE : ℚ)
    (l₁ l₂ : List DiarizationTurn) (sp : String) :
    accumulatedOverlap wS wE (l₁ ++ l₂) sp =
      accumulatedOverlap wS wE l₁ sp + accumulatedOverlap wS wE l₂ sp := by
  simp [accumulatedOverlap, List.filter_append]

theorem accumulatedOverlap_nonneg (wS wE : ℚ) (segs : List DiarizationTurn)
    (sp : String) : 0 ≤ accumulatedOverlap wS wE segs sp := by
  induction segs with
  | nil => simp
  | cons t rest ih =>
      have h0 := overlapDuration_nonneg wS wE t.start t.«end»
      by_cases h : t.speaker = sp
      · simp only [accumulatedOverlap_cons, h, if_pos rfl]
        positivity
      · simp [h, ih]

/-! ## The `speaker_overlaps` dict as an ordered association list -/

theorem addOverlap_of_not_mem {acc : List (String × ℚ)} {sp : String}
    (d : ℚ) (h : sp ∉ acc.map Prod.fst) :
    addOverlap acc sp d = acc ++ [(sp, d)] := by
  induction acc with
  | nil => rfl
  | cons p rest ih =>
      simp only [List.map_cons, List.mem_cons, not_or] at h
      have h1 : ¬p.1 = sp := fun hc => h.1 hc.symm
      simp [addOverlap, h1, ih h.2]

theorem map_pair_add_zero (l : List (String × ℚ)) :
    l.map (fun p => (p.1, p.2 + (0 : ℚ))) = l := by
  induction l with
  | nil => rfl
  | cons p rest ih => simp [ih]

theorem map_update_of_not_mem {l : List (String × ℚ)} {sp : String}
    (f : ℚ → ℚ) (h : sp ∉ l.map Prod.fst) :
    l.map (fun p => if p.1 = sp then (p.1, f p.2) else p) = l := by
  induction l with
  | nil => rfl
  | cons p rest ih =>
      simp only [List.map_cons, List.mem_cons, not_or] at h
      have h1 : ¬p.1 = sp := fun hc => h.1 hc.symm
      simp [h1, ih h.2]

theorem addOverlap_of_mem {acc : List (String × ℚ)} {sp : String} (d : ℚ)
    (hnd : (acc.map Prod.fst).Nodup) (h : sp ∈ acc.map Prod.fst) :
    addOverlap acc sp d =
      acc.map (fun p => if p.1 = sp then (p.1, p.2 + d) else p) := by
  induction acc with
  | nil => simp at h
  | cons p rest ih =>
      simp only [List.map_cons, List.nodup_cons] at hnd
      by_cases hp : p.1 = sp
      · subst hp
        have : p.1 ∉ rest.map Prod.fst := hnd.1
        simp [addOverlap, map_update_of_not_mem (· + d) this]
      · simp only [List.map_cons, List.mem_cons] at h
        have hmem : sp ∈ rest.map Prod.fst := by
          rcases h with h1 | h1
          · exact absurd h1.symm hp
          · exact h1
        simp [addOverlap, hp, ih hnd.2 hmem]

theorem addOverlap_keys (acc : List (String × ℚ)) (sp : String) (d : ℚ)
    (hnd : (acc.map Prod.fst).Nodup) :
    (addOverlap acc sp d).map Prod.fst =
      if sp ∈ acc.map Prod.fst then acc.map Prod.fst
      else acc.map Prod.fst ++ [sp] := by
  by_cases h : sp ∈ acc.map Prod.fst
  · rw [if_pos h, addOverlap_of_mem d hnd h, List.map_map]
    refine List.map_congr_left fun p _ => ?_
    by_cases hp : p.1 = sp <;> simp [hp]
  · rw [if_neg h, addOverlap_of_not_mem d h]
    simp

@[simp] theorem positiveSpeakers_nil (wS wE : ℚ) :
    positiveSpeakers wS wE [] = [] := rfl

theorem positiveSpeakers_cons (wS wE : ℚ) (t : DiarizationTurn)
    (rest : List DiarizationTurn) :
    positiveSpeakers wS wE (t :: rest) =
      if 0 < overlapDuration wS wE t.start t.«end» then
        t.speaker :: (positiveSpeakers wS wE rest).filter (fun s => s ≠ t.speaker)
      else positiveSpeakers wS wE rest := rfl

/-- Characterization of the `speaker_overlaps` fold from an arbitrary
accumulator with distinct keys: existing keys get the remaining segments'
accumulated overlap added, and the new keys appear behind them in order of
first positive contribution, each carrying its accumulated overlap. -/
theorem speakerOverlaps_foldl_char (wS wE : ℚ) :
    ∀ (segs : List DiarizationTurn) (acc : List (String × ℚ)),
      (acc.map Prod.fst).Nodup →
      segs.foldl
        (fun acc t =>
          if 0 < overlapDuration wS wE t.start t.«end» then
            addOverlap acc t.speaker (overlapDuration wS wE t.start t.«end»)
          else acc)
        acc
      = acc.map (fun p => (p.1, p.2 + accumulatedOverlap wS wE segs p.1))
        ++ ((positiveSpeakers wS wE segs).filter
              (fun s => s ∉ acc.map Prod.fst)).map
            (fun s => (s, accumulatedOverlap wS wE segs s)) := by
  intro segs
  induction segs with
  | nil =>
      intro acc _
      simp [map_pair_add_zero]
  | cons t rest ih =>
      intro acc hnd
      simp only [List.foldl_cons]
      by_cases h0 : 0 < overlapDuration wS wE t.start t.«end»
      case neg =>
        rw [if_neg h0]
        have ho : overlapDuration wS wE t.start t.«end» = 0 :=
          le_antisymm (not_lt.mp h0) (overlapDuration_nonneg _ _ _ _)
        rw [ih acc hnd, positiveSpeakers_cons, if_neg h0]
        simp [accumulatedOverlap_cons, ho]
      case pos =>
        rw [if_pos h0]
        by_cases hm : t.speaker ∈ acc.map Prod.fst
        case pos =>
          rw [addOverlap_of_mem _ hnd hm]
          have hkeys :
              ((acc.map (fun p =>
                  if p.1 = t.speaker then
                    (p.1, p.2 + overlapDuration wS wE t.start t.«end»)
                  else p)).map Prod.fst) = acc.map Prod.fst := by
            rw [List.map_map]
            refine List.map_congr_left fun p _ => ?_
            by_cases hp : p.1 = t.speaker <;> simp [hp]
          rw [ih _ (by rw [hkeys]; exact hnd)]
          congr 1
          case e_a =>
            rw [List.map_map]
            refine List.map_congr_left fun p _ => ?_
            by_cases hp : p.1 = t.speaker
            case pos => simp [Function.comp, hp, accumulatedOverlap_cons, add_assoc]
            case neg =>
              have hp2 : ¬t.speaker = p.1 := fun hc => hp hc.symm
              simp [Function.comp, hp, hp2, accumulatedOverlap_cons]
          case e_a =>
            rw [hkeys, positiveSpeakers_cons, if_pos h0]
            rw [List.filter_cons_of_neg (by simpa using hm), List.filter_filter]
            have hfil :
                (positiveSpeakers wS wE rest).filter
                    (fun s => decide (s ∉ acc.map Prod.fst) && decide (s ≠ t.speaker))
                  = (positiveSpeakers wS wE rest).filter
                      (fun s => s ∉ acc.map Prod.fst) := by
              refine List.filter_congr fun s _ => ?_
              by_cases hs : s ∈ acc.map Prod.fst
              case pos => simp [hs]
              case neg =>
                have hst : s ≠ t.speaker := fun hc => hs (hc ▸ hm)
                simp [hs, hst]
            rw [hfil]
            refine List.map_congr_left fun s hs => ?_
            have hs2 : s ∉ acc.map Prod.fst := by
              simpa using (List.mem_filter.1 hs).2
            have hst : ¬t.speaker = s := fun hc => hs2 (hc ▸ hm)
            simp [accumulatedOverlap_cons, hst]
        case neg =>
          rw [addOverlap_of_not_mem _ hm]
          have hnd2 : (((acc ++ [(t.speaker, overlapDuration wS wE t.start t.«end»)]).map
              Prod.fst)).Nodup := by
            simp only [List.map_append, List.map_cons, List.map_nil]
            rw [List.nodup_append]
            exact ⟨hnd, List.nodup_singleton _, by simpa using hm⟩
          rw [ih _ hnd2]
          rw [positiveSpeakers_cons, if_pos h0,
            List.filter_cons_of_pos (by simpa using hm), List.filter_filter]
          simp only [List.map_append, List.map_cons, List.map_nil, List.mem_append,
            List.mem_cons, List.append_assoc, List.singleton_append]
          congr 1
          case e_a =>
            refine List.map_congr_left fun p hp => ?_
            have hps : ¬t.speaker = p.1 := by
              intro hc
              exact hm (hc ▸ List.mem_map_of_mem Prod.fst hp)
            simp [accumulatedOverlap_cons, hps]
          case e_a =>
            congr 1
            case e_head => simp [accumulatedOverlap_cons]
            case e_tail =>
              have hfil :
                  (positiveSpeakers wS wE rest).filter
                      (fun s => decide (¬(s ∈ acc.map Prod.fst ∨ s = t.speaker ∨
                        s ∈ ([] : List String))))
                    = (positiveSpeakers wS wE rest).filter
                        (fun a => decide (a ∉ acc.map Prod.fst) && decide (a ≠ t.speaker)) := by
                refine List.filter_congr fun s _ => ?_
                by_cases hs : s ∈ acc.map Prod.fst <;> by_cases hst : s = t.speaker <;>
                  simp [hs, hst]
              rw [hfil]
              refine List.map_congr_left fun s hs => ?_
              have hs2 := (List.mem_filter.1 hs).2
              have hst : ¬t.speaker = s := by
                intro hc
                simp [← hc] at hs2
              simp [accumulatedOverlap_cons, hst]

/-- The `speaker_overlaps` dict is exactly the positive-overlap speakers in
first-contribution order, each paired with its total accumulated overlap. -/
theorem speakerOverlaps_eq (wS wE : ℚ) (segs : List DiarizationTurn) :
    speakerOverlaps wS wE segs =
      (positiveSpeakers wS wE segs).map
        (fun s => (s, accumulatedOverlap wS wE segs s)) := by
  have h := speakerOverlaps_foldl_char wS wE segs [] (by simp)
  simpa [speakerOverlaps] using h

theorem positiveSpeakers_nodup (wS wE : ℚ) (segs : List DiarizationTurn) :
    (positiveSpeakers wS wE segs).Nodup := by
  induction segs with
  | nil => simp
  | cons t rest ih =>
      rw [positiveSpeakers_cons]
      by_cases h0 : 0 < overlapDuration wS wE t.start t.«end»
      case neg => simpa [h0] using ih
      case pos =>
        rw [if_pos h0]
        refine List.Nodup.cons ?_ (ih.filter _)
        intro hmem
        have := (List.mem_filter.1 hmem).2
        simp at this

theorem mem_positiveSpeakers {wS wE : ℚ} {segs : List DiarizationTurn}
    {s : String} :
    s ∈ positiveSpeakers wS wE segs ↔
      ∃ t ∈ segs, t.speaker = s ∧ 0 < overlapDuration wS wE t.start t.«end» := by
  induction segs with
  | nil => simp
  | cons t rest ih =>
      rw [positiveSpeakers_cons]
      by_cases h0 : 0 < overlapDuration wS wE t.start t.«end»
      case pos =>
        rw [if_pos h0]
        constructor
        · intro hmem
          rcases List.mem_cons.1 hmem with h1 | h1
          · exact ⟨t, List.mem_cons_self _ _, h1.symm, h0⟩
          · rcases ih.1 (List.mem_filter.1 h1).1 with ⟨u, hu, hus, hupos⟩
            exact ⟨u, List.mem_cons_of_mem _ hu, hus, hupos⟩
        · rintro ⟨u, hu, hus, hupos⟩
          rcases List.mem_cons.1 hu with h1 | h1
          · exact h1 ▸ hus ▸ List.mem_cons_self _ _
          · by_cases hst : s = t.speaker
            · exact hst ▸ List.mem_cons_self _ _
            · refine List.mem_cons_of_mem _ (List.mem_filter.2 ⟨ih.2 ⟨u, h1, hus, hupos⟩, ?_⟩)
              simpa using hst
      case neg =>
        rw [if_neg h0, ih]
        constructor
        · rintro ⟨u, hu, hus, hupos⟩
          exact ⟨u, List.mem_cons_of_mem _ hu, hus, hupos⟩
        · rintro ⟨u, hu, hus, hupos⟩
          rcases List.mem_cons.1 hu with h1 | h1
          · exact absurd (h1 ▸ hupos) h0
          · exact ⟨u, h1, hus, hupos⟩

theorem accumulatedOverlap_eq_zero_of_not_mem {wS wE : ℚ}
    {segs : List DiarizationTurn} {s : String}
    (h : s ∉ positiveSpeakers wS wE segs) :
    accumulatedOverlap wS wE segs s = 0 := by
  induction segs with
  | nil => simp
  | cons t rest ih =>
      rw [positiveSpeakers_cons] at h
      by_cases h0 : 0 < overlapDuration wS wE t.start t.«end»
      case pos =>
        rw [if_pos h0] at h
        have hst : ¬t.speaker = s := by
          intro hc
          exact h (hc ▸ List.mem_cons_self _ _)
        have hrest : s ∉ positiveSpeakers wS wE rest := by
          intro hmem
          refine h (List.mem_cons_of_mem _ (List.mem_filter.2 ⟨hmem, ?_⟩))
          simpa using fun hc => hst hc.symm
        simp [accumulatedOverlap_cons, hst, ih hrest]
      case neg =>
        rw [if_neg h0] at h
        have ho : overlapDuration wS wE t.start t.«end» = 0 :=
          le_antisymm (not_lt.mp h0) (overlapDuration_nonneg _ _ _ _)
        simp [accumulatedOverlap_cons, ho, ih h]

theorem accumulatedOverlap_pos_of_mem {wS wE : ℚ}
    {segs : List DiarizationTurn} {s : String}
    (h : s ∈ positiveSpeakers wS wE segs) :
    0 < accumulatedOverlap wS wE segs s := by
  induction segs with
  | nil => simp at h
  | cons t rest ih =>
      rw [positiveSpeakers_cons] at h
      by_cases h0 : 0 < overlapDuration wS wE t.start t.«end»
      case pos =>
        rw [if_pos h0] at h
        rcases List.mem_cons.1 h with h1 | h1
        · have hnn := accumulatedOverlap_nonneg wS wE rest s
          simp only [accumulatedOverlap_cons, h1, if_pos rfl]
          subst h1
          positivity
        · have hmem := (List.mem_filter.1 h1).1
          have := ih hmem
          have hnn : (0:ℚ) ≤ if t.speaker = s then overlapDuration wS wE t.start t.«end» else 0 := by
            split
            · exact overlapDuration_nonneg _ _ _ _
            · exact le_refl 0
          simp only [accumulatedOverlap_cons]
          positivity
      case neg =>
        rw [if_neg h0] at h
        have ho : overlapDuration wS wE t.start t.«end» = 0 :=
          le_antisymm (not_lt.mp h0) (overlapDuration_nonneg _ _ _ _)
        simp [accumulatedOverlap_cons, ho, ih h]

theorem positiveSpeakers_pairwise_firstIdx (wS wE : ℚ)
    (segs : List DiarizationTurn) :
    (positiveSpeakers wS wE segs).Pairwise
      (fun a b => firstPositiveIdx wS wE segs a < firstPositiveIdx wS wE segs b) := by
  induction segs with
  | nil => simp
  | cons t rest ih =>
      have hidx : ∀ s : String, ¬(decide (t.speaker = s) &&
          decide (0 < overlapDuration wS wE t.start t.«end»)) = true →
          firstPositiveIdx wS wE (t :: rest) s = firstPositiveIdx wS wE rest s + 1 := by
        intro s hs
        unfold firstPositiveIdx
        rw [List.findIdx_cons]
        simp only [Bool.not_eq_true] at hs
        rw [hs]
        rfl
      rw [positiveSpeakers_cons]
      by_cases h0 : 0 < overlapDuration wS wE t.start t.«end»
      case neg =>
        rw [if_neg h0]
        refine ih.imp_of_mem fun {a b} ha hb hr => ?_
        have h1 := hidx a (by simp [h0])
        have h2 := hidx b (by simp [h0])
        rw [h1, h2]
        omega
      case pos =>
        rw [if_pos h0]
        refine List.pairwise_cons.2 ⟨?_, ?_⟩
        · intro b hb
          have hbne : b ≠ t.speaker := by
            have := (List.mem_filter.1 hb).2
            simpa using this
          have hhead : firstPositiveIdx wS wE (t :: rest) t.speaker = 0 := by
            unfold firstPositiveIdx
            rw [List.findIdx_cons]
            simp [h0]
          have hb2 := hidx b (by simp [(Ne.symm hbne : ¬t.speaker = b)])
          rw [hhead, hb2]
          omega
        · refine (ih.filter _).imp_of_mem fun {a b} ha hb hr => ?_
          have hane : a ≠ t.speaker := by simpa using (List.mem_filter.1 ha).2
          have hbne : b ≠ t.speaker := by simpa using (List.mem_filter.1 hb).2
          have h1 := hidx a (by simp [(Ne.symm hane : ¬t.speaker = a)])
          have h2 := hidx b (by simp [(Ne.symm hbne : ¬t.speaker = b)])
          rw [h1, h2]
          omega

/-- Specification of the `max(..., key=lambda x: x[1])` fold: the result
splits the list into a strictly-smaller prefix and a no-larger suffix (so
it is the first item attaining the maximal value). -/
theorem pyMaxFold_spec :
    ∀ (l : List (String × ℚ)) (p r : String × ℚ),
      l.foldl (fun best x => if best.2 < x.2 then x else best) p = r →
      ∃ l₁ l₂, p :: l = l₁ ++ r :: l₂ ∧ (∀ q ∈ l₁, q.2 < r.2) ∧
        (∀ q ∈ l₂, q.2 ≤ r.2) := by
  intro l
  induction l with
  | nil =>
      intro p r h
      exact ⟨[], [], by simp [← h], by simp, by simp⟩
  | cons x rest ih =>
      intro p r h
      rw [List.foldl_cons] at h
      by_cases hx : p.2 < x.2
      case pos =>
        rw [if_pos hx] at h
        rcases ih x r h with ⟨l₁, l₂, hdec, hlt, hle⟩
        cases l₁ with
        | nil =>
            simp only [List.nil_append, List.cons.injEq] at hdec
            refine ⟨[p], l₂, ?_, ?_, ?_⟩
            · simp [hdec.1, hdec.2]
            · intro q hq
              rcases List.mem_singleton.1 hq with rfl
              exact hdec.1 ▸ hx
            · exact hle
        | cons y l₁ =>
            simp only [List.cons_append, List.cons.injEq] at hdec
            refine ⟨p :: y :: l₁, l₂, ?_, ?_, ?_⟩
            · simp [hdec.1, hdec.2]
            · intro q hq
              rcases List.mem_cons.1 hq with rfl | hq2
              · have hy : y.2 < r.2 := hlt y (List.mem_cons_self _ _)
                exact lt_trans (hdec.1 ▸ hx) hy
              · exact hlt q hq2
            · exact hle
      case neg =>
        rw [if_neg hx] at h
        rcases ih p r h with ⟨l₁, l₂, hdec, hlt, hle⟩
        cases l₁ with
        | nil =>
            simp only [List.nil_append, List.cons.injEq] at hdec
            refine ⟨[], x :: l₂, ?_, by simp, ?_⟩
            · simp [hdec.1, hdec.2]
            · intro q hq
              rcases List.mem_cons.1 hq with rfl | hq2
              · exact hdec.1 ▸ not_lt.mp hx
              · exact hle q hq2
        | cons y l₁ =>
            simp only [List.cons_append, List.cons.injEq] at hdec
            refine ⟨p :: x :: l₁, l₂, ?_, ?_, hle⟩
            · simp [hdec.1, hdec.2]
            · intro q hq
              rcases List.mem_cons.1 hq with rfl | hq2
              · exact hdec.1 ▸ hlt y (List.mem_cons_self _ _)
              · rcases List.mem_cons.1 hq2 with rfl | hq3
                · exact lt_of_le_of_lt (not_lt.mp hx)
                    (hdec.1 ▸ hlt y (List.mem_cons_self _ _))
                · exact hlt q (List.mem_cons_of_mem _ hq3)

theorem pyMaxBySnd_spec {l : List (String × ℚ)} (h : l ≠ []) :
    ∃ r l₁ l₂, pyMaxBySnd l = some r ∧ l = l₁ ++ r :: l₂ ∧
      (∀ q ∈ l₁, q.2 < r.2) ∧ (∀ q ∈ l₂, q.2 ≤ r.2) := by
  cases l with
  | nil => exact absurd rfl h
  | cons p rest =>
      rcases pyMaxFold_spec rest p _ rfl with ⟨l₁, l₂, hdec, hlt, hle⟩
      exact ⟨_, l₁, l₂, rfl, hdec, hlt, hle⟩

/-- The core property of the positive-overlap branch shared by the
word-level and segment-level paths: whenever some turn has positive
overlap with the interval, `max(speaker_overlaps.items(), key=...)`
returns a speaker with positive and maximal accumulated overlap, and all
equally-maximal speakers acquired their first positive overlap no earlier
in turn order. -/
theorem bestOverlap_spec (wS wE : ℚ) (segs : List DiarizationTurn)
    (h : ∃ t ∈ segs, 0 < overlapDuration wS wE t.start t.«end») :
    ∃ r : String × ℚ, pyMaxBySnd (speakerOverlaps wS wE segs) = some r ∧
      0 < accumulatedOverlap wS wE segs r.1 ∧
      (∀ s, accumulatedOverlap wS wE segs s ≤ accumulatedOverlap wS wE segs r.1) ∧
      (∀ s, accumulatedOverlap wS wE segs s = accumulatedOverlap wS wE segs r.1 →
        firstPositiveIdx wS wE segs r.1 ≤ firstPositiveIdx wS wE segs s) := by
  rcases h with ⟨t, ht, hpos⟩
  have hmem : t.speaker ∈ positiveSpeakers wS wE segs :=
    mem_positiveSpeakers.2 ⟨t, ht, rfl, hpos⟩
  have hne2 : speakerOverlaps wS wE segs ≠ [] := by
    rw [speakerOverlaps_eq]
    simpa using List.ne_nil_of_mem hmem
  rcases pyMaxBySnd_spec hne2 with ⟨r, l₁, l₂, hmax, hdec, hlt, hle⟩
  rw [speakerOverlaps_eq] at hdec
  rcases List.map_eq_append_iff.1 hdec with ⟨P₁, P₂, hsplit, hm₁, hm₂⟩
  rcases List.map_eq_cons_iff.1 hm₂ with ⟨s₀, Q₂, hP₂, hfs₀, hmQ₂⟩
  have hr1 : r.1 = s₀ := by rw [← hfs₀]
  have hr2 : r.2 = accumulatedOverlap wS wE segs s₀ := by rw [← hfs₀]
  have hs₀mem : s₀ ∈ positiveSpeakers wS wE segs := by
    rw [hsplit, hP₂]
    exact List.mem_append_right _ (List.mem_cons_self _ _)
  have hposr : 0 < accumulatedOverlap wS wE segs r.1 := by
    rw [hr1]
    exact accumulatedOverlap_pos_of_mem hs₀mem
  have hmaxall : ∀ s, accumulatedOverlap wS wE segs s ≤
      accumulatedOverlap wS wE segs r.1 := by
    intro s
    by_cases hs : s ∈ positiveSpeakers wS wE segs
    · have hsmem : (s, accumulatedOverlap wS wE segs s) ∈
          (positiveSpeakers wS wE segs).map
            (fun s => (s, accumulatedOverlap wS wE segs s)) :=
        List.mem_map_of_mem _ hs
      rw [hdec] at hsmem
      rcases List.mem_append.1 hsmem with h1 | h1
      · have := hlt _ h1
        rw [hr2, hr1] at *
        exact le_of_lt this
      · rcases List.mem_cons.1 h1 with h2 | h2
        · have : accumulatedOverlap wS wE segs s = r.2 := congrArg Prod.snd h2
          rw [this, hr2, hr1]
        · have := hle _ h2
          rw [hr2, hr1] at *
          exact this
    · rw [accumulatedOverlap_eq_zero_of_not_mem hs]
      exact le_of_lt hposr
  refine ⟨r, hmax, hposr, hmaxall, ?_⟩
  intro s heq
  by_cases hs : s ∈ positiveSpeakers wS wE segs
  case neg =>
    rw [accumulatedOverlap_eq_zero_of_not_mem hs] at heq
    exact absurd (heq ▸ hposr) (lt_irrefl _)
  case pos =>
    have hsmem : (s, accumulatedOverlap wS wE segs s) ∈
        (positiveSpeakers wS wE segs).map
          (fun s => (s, accumulatedOverlap wS wE segs s)) :=
      List.mem_map_of_mem _ hs
    rw [hdec] at hsmem
    rcases List.mem_append.1 hsmem with h1 | h1
    · have hcontra := hlt _ h1
      simp only at hcontra
      rw [heq, hr2, hr1] at hcontra
      exact absurd hcontra (lt_irrefl _)
    · rcases List.mem_cons.1 h1 with h2 | h2
      · have : s = r.1 := (congrArg Prod.fst h2).symm ▸ rfl
        rw [← this]
      · rw [← hmQ₂] at h2
        rcases List.mem_map.1 h2 with ⟨s₂, hs₂, hfs₂⟩
        have hss : s₂ = s := congrArg Prod.fst hfs₂
        subst hss
        have hpw := positiveSpeakers_pairwise_firstIdx wS wE segs
        rw [hsplit, hP₂] at hpw
        have hpw2 := (List.pairwise_append.1 hpw).2.1
        have := (List.pairwise_cons.1 hpw2).1 _ hs₂
        rw [hr1]
        exact le_of_lt this

/-! ## The nearest-turn fold -/

@[simp] theorem nearestStep_none (wc : ℚ) (t : DiarizationTurn) :
    nearestStep wc none t = some (|wc - (t.start + t.«end») / 2|, t.speaker) := rfl

@[simp] theorem nearestStep_some (wc : ℚ) (md : ℚ × String)
    (t : DiarizationTurn) :
    nearestStep wc (some md) t =
      if |wc - (t.start + t.«end») / 2| < md.1 then
        some (|wc - (t.start + t.«end») / 2|, t.speaker)
      else some md := rfl

/-- Specification of the nearest-turn fold from a concrete running best:
the result is a pair that is either the running best or some turn's
distance/speaker, no larger than the running best, and minimal among the
remaining turns' distances. -/
theorem nearestFold_spec (wc : ℚ) :
    ∀ (segs : List DiarizationTurn) (d₀ : ℚ) (s₀ : String),
      ∃ d s, segs.foldl (nearestStep wc) (some (d₀, s₀)) = some (d, s) ∧
        ((d = d₀ ∧ s = s₀) ∨
          ∃ t ∈ segs, d = |wc - (t.start + t.«end») / 2| ∧ s = t.speaker) ∧
        d ≤ d₀ ∧ ∀ u ∈ segs, d ≤ |wc - (u.start + u.«end») / 2| := by
  intro segs
  induction segs with
  | nil =>
      intro d₀ s₀
      exact ⟨d₀, s₀, rfl, Or.inl ⟨rfl, rfl⟩, le_refl _, by simp⟩
  | cons t rest ih =>
      intro d₀ s₀
      rw [List.foldl_cons, nearestStep_some]
      by_cases hd : |wc - (t.start + t.«end») / 2| < d₀
      case pos =>
        rw [if_pos hd]
        rcases ih (|wc - (t.start + t.«end») / 2|) t.speaker with
          ⟨d, s, heq, horig, hled, hall⟩
        refine ⟨d, s, heq, ?_, le_of_lt (lt_of_le_of_lt hled hd), ?_⟩
        · rcases horig with ⟨hd1, hs1⟩ | ⟨u, hu, hdu, hsu⟩
          · exact Or.inr ⟨t, List.mem_cons_self _ _, hd1, hs1⟩
          · exact Or.inr ⟨u, List.mem_cons_of_mem _ hu, hdu, hsu⟩
        · intro u hu
          rcases List.mem_cons.1 hu with rfl | hu2
          · exact hled
          · exact hall u hu2
      case neg =>
        rw [if_neg hd]
        rcases ih d₀ s₀ with ⟨d, s, heq, horig, hled, hall⟩
        refine ⟨d, s, heq, ?_, hled, ?_⟩
        · rcases horig with h1 | ⟨u, hu, hdu, hsu⟩
          · exact Or.inl h1
          · exact Or.inr ⟨u, List.mem_cons_of_mem _ hu, hdu, hsu⟩
        · intro u hu
          rcases List.mem_cons.1 hu with rfl | hu2
          · exact le_trans hled (not_lt.mp hd)
          · exact hall u hu2

/-- When no turn has positive overlap, `positiveSpeakers` is empty. -/
theorem positiveSpeakers_eq_nil {wS wE : ℚ} {segs : List DiarizationTurn}
    (hno : ∀ t ∈ segs, overlapDuration wS wE t.start t.«end» ≤ 0) :
    positiveSpeakers wS wE segs = [] := by
  rcases h : positiveSpeakers wS wE segs with _ | ⟨s, rest⟩
  · rfl
  · exfalso
    have hs : s ∈ positiveSpeakers wS wE segs := h ▸ List.mem_cons_self _ _
    rcases mem_positiveSpeakers.1 hs with ⟨t, ht, _, hpos⟩
    exact absurd (hno t ht) (not_le.2 hpos)

/-! ## Claim theorems -/

/-- Claim C1 (word-speaker assignment): for every word and turn sequence, if
some turn has strictly positive overlap with the word (zero-duration
overlap counts for nothing), the speaker assigned to the word has strictly
positive accumulated overlap that is maximal over all speaker labels
(summing overlap per label across all of a label's turns), and every
label tied for the maximum acquired its first positive overlap no earlier
in turn order (the first speaker encountered wins the tie). -/
theorem c1_word_speaker_assignment (w : Word) (segments : List DiarizationTurn)
    (h : ∃ t ∈ segments, 0 < overlapDuration w.start w.«end» t.start t.«end») :
    0 < accumulatedOverlap w.start w.«end» segments
        ((attributeWord segments w).speaker) ∧
      (∀ s, accumulatedOverlap w.start w.«end» segments s ≤
        accumulatedOverlap w.start w.«end» segments
          ((attributeWord segments w).speaker)) ∧
      (∀ s, accumulatedOverlap w.start w.«end» segments s =
          accumulatedOverlap w.start w.«end» segments
            ((attributeWord segments w).speaker) →
        firstPositiveIdx w.start w.«end» segments
            ((attributeWord segments w).speaker) ≤
          firstPositiveIdx w.start w.«end» segments s) := by
  rcases bestOverlap_spec w.start w.«end» segments h with ⟨r, hmax, hpos, hle, htie⟩
  have hspk : (attributeWord segments w).speaker = r.1 := by
    simp [attributeWord, assignSpeaker, hmax]
  rw [hspk]
  exact ⟨hpos, hle, htie⟩

/-- Witness for C1 at a concrete input: the word `(0,1)` against the single
turn `(0,2,"S1")`. -/
theorem c1_witness :
    (∃ t ∈ [DiarizationTurn.mk 0 2 "S1"],
        0 < overlapDuration (0:ℚ) 1 t.start t.«end») ∧
      (0 < accumulatedOverlap 0 1 [DiarizationTurn.mk 0 2 "S1"]
          ((attributeWord [DiarizationTurn.mk 0 2 "S1"] ⟨"hi", 0, 1, 0⟩).speaker) ∧
        (∀ s, accumulatedOverlap 0 1 [DiarizationTurn.mk 0 2 "S1"] s ≤
          accumulatedOverlap 0 1 [DiarizationTurn.mk 0 2 "S1"]
            ((attributeWord [DiarizationTurn.mk 0 2 "S1"] ⟨"hi", 0, 1, 0⟩).speaker)) ∧
        (∀ s, accumulatedOverlap 0 1 [DiarizationTurn.mk 0 2 "S1"] s =
            accumulatedOverlap 0 1 [DiarizationTurn.mk 0 2 "S1"]
              ((attributeWord [DiarizationTurn.mk 0 2 "S1"] ⟨"hi", 0, 1, 0⟩).speaker) →
          firstPositiveIdx 0 1 [DiarizationTurn.mk 0 2 "S1"]
              ((attributeWord [DiarizationTurn.mk 0 2 "S1"] ⟨"hi", 0, 1, 0⟩).speaker) ≤
            firstPositiveIdx 0 1 [DiarizationTurn.mk 0 2 "S1"] s)) :=
  ⟨of_decide_eq_true (by with_unfolding_all rfl),
    c1_word_speaker_assignment ⟨"hi", 0, 1, 0⟩ [DiarizationTurn.mk 0 2 "S1"]
      (of_decide_eq_true (by with_unfolding_all rfl))⟩

/-- Claim C7 (nearest-neighbor fallback): for every word overlapping no turn
at all and every non-empty turn sequence, the assigned speaker is the
speaker of a turn whose center is at minimum absolute distance from the
word's center (so the fallback always succeeds and never leaves the
`"Unknown"` default). -/
theorem c7_nearest_neighbor_fallback (w : Word)
    (segments : List DiarizationTurn) (hne : segments ≠ [])
    (hno : ∀ t ∈ segments, overlapDuration w.start w.«end» t.start t.«end» ≤ 0) :
    ∃ t ∈ segments, (attributeWord segments w).speaker = t.speaker ∧
      ∀ u ∈ segments,
        |(w.start + w.«end») / 2 - (t.start + t.«end») / 2| ≤
          |(w.start + w.«end») / 2 - (u.start + u.«end») / 2| := by
  have hov : speakerOverlaps w.start w.«end» segments = [] := by
    rw [speakerOverlaps_eq, positiveSpeakers_eq_nil hno]
    rfl
  have hassign : (attributeWord segments w).speaker =
      nearestSpeaker ((w.start + w.«end») / 2) segments := by
    simp [attributeWord, assignSpeaker, hov, pyMaxBySnd]
  rw [hassign]
  cases segments with
  | nil => exact absurd rfl hne
  | cons t rest =>
      rcases nearestFold_spec ((w.start + w.«end») / 2) rest
          (|(w.start + w.«end») / 2 - (t.start + t.«end») / 2|) t.speaker with
        ⟨d, s, heq, horig, hled, hall⟩
      have hns : nearestSpeaker ((w.start + w.«end») / 2) (t :: rest) = s := by
        unfold nearestSpeaker
        rw [List.foldl_cons, nearestStep_none, heq]
      rcases horig with ⟨hd1, hs1⟩ | ⟨u, hu, hdu, hsu⟩
      · refine ⟨t, List.mem_cons_self _ _, hns.trans hs1, ?_⟩
        intro u hu
        rcases List.mem_cons.1 hu with rfl | hu2
        · exact le_refl _
        · exact hd1 ▸ hall u hu2
      · refine ⟨u, List.mem_cons_of_mem _ hu, hns.trans hsu, ?_⟩
        intro v hv
        rcases List.mem_cons.1 hv with rfl | hv2
        · exact hdu ▸ hled
        · exact hdu ▸ hall v hv2

/-- Witness for C7: scenario D — one word at `(10,11)` with turns
`(0,5,"S1")` and `(20,25,"S2")` overlaps nothing, and the assignment
resolves by nearest center; concretely it returns `"S1"`. -/
theorem c7_witness :
    (([DiarizationTurn.mk 0 5 "S1", DiarizationTurn.mk 20 25 "S2"] :
        List DiarizationTurn) ≠ []) ∧
      (∀ t ∈ [DiarizationTurn.mk 0 5 "S1", DiarizationTurn.mk 20 25 "S2"],
        overlapDuration (10:ℚ) 11 t.start t.«end» ≤ 0) ∧
      (∃ t ∈ [DiarizationTurn.mk 0 5 "S1", DiarizationTurn.mk 20 25 "S2"],
        (attributeWord [DiarizationTurn.mk 0 5 "S1", DiarizationTurn.mk 20 25 "S2"]
            ⟨"w", 10, 11, 0⟩).speaker = t.speaker ∧
          ∀ u ∈ [DiarizationTurn.mk 0 5 "S1", DiarizationTurn.mk 20 25 "S2"],
            |((10:ℚ) + 11) / 2 - (t.start + t.«end») / 2| ≤
              |((10:ℚ) + 11) / 2 - (u.start + u.«end») / 2|) ∧
      (attributeWord [DiarizationTurn.mk 0 5 "S1", DiarizationTurn.mk 20 25 "S2"]
          ⟨"w", 10, 11, 0⟩).speaker = "S1" :=
  ⟨of_decide_eq_true (by with_unfolding_all rfl),
    of_decide_eq_true (by with_unfolding_all rfl),
    c7_nearest_neighbor_fallback ⟨"w", 10, 11, 0⟩ _
      (of_decide_eq_true (by with_unfolding_all rfl))
      (of_decide_eq_true (by with_unfolding_all rfl)),
    of_decide_eq_true (by with_unfolding_all rfl)⟩

/-- Claim C9 (overlap formula, non-negativity, and monotonicity): the overlap
of two intervals is `max(0, min(ends) - max(starts))` and never negative;
and extending one turn's end while holding the word and all other turns
fixed cannot decrease that turn's speaker's accumulated overlap for a word
that previously overlapped the turn. -/
theorem c9_overlap_monotonicity :
    (∀ aS aE bS bE : ℚ,
      overlapDuration aS aE bS bE = max 0 (min aE bE - max aS bS) ∧
        0 ≤ overlapDuration aS aE bS bE) ∧
    (∀ (w : Word) (l₁ l₂ : List DiarizationTurn) (t : DiarizationTurn)
      (e₂ : ℚ), t.«end» ≤ e₂ →
      0 < overlapDuration w.start w.«end» t.start t.«end» →
      accumulatedOverlap w.start w.«end» (l₁ ++ t :: l₂) t.speaker ≤
        accumulatedOverlap w.start w.«end»
          (l₁ ++ { t with «end» := e₂ } :: l₂) t.speaker) := by
  constructor
  · exact fun aS aE bS bE => ⟨rfl, overlapDuration_nonneg aS aE bS bE⟩
  · intro w l₁ l₂ t e₂ hext _
    rw [accumulatedOverlap_append, accumulatedOverlap_append,
      accumulatedOverlap_cons, accumulatedOverlap_cons]
    have hmono : overlapDuration w.start w.«end» t.start t.«end» ≤
        overlapDuration w.start w.«end» t.start e₂ := by
      unfold overlapDuration
      exact max_le_max (le_refl 0)
        (sub_le_sub_right (min_le_min (le_refl _) hext) _)
    have hsp : ({ t with «end» := e₂ } : DiarizationTurn).speaker = t.speaker := rfl
    have hst : ({ t with «end» := e₂ } : DiarizationTurn).start = t.start := rfl
    have hen : ({ t with «end» := e₂ } : DiarizationTurn).«end» = e₂ := rfl
    rw [hsp, hst, hen, if_pos rfl, if_pos rfl]
    exact add_le_add (le_refl _) (add_le_add hmono (le_refl _))

/-! ## Run splitting -/

theorem runsLoop_flatten :
    ∀ (rest : List AttributedWord) (sp : String) (cur : List AttributedWord),
      (runsLoop sp cur rest).flatten = cur ++ rest := by
  intro rest
  induction rest with
  | nil => intro sp cur; simp [runsLoop]
  | cons w rest ih =>
      intro sp cur
      unfold runsLoop
      by_cases h : w.speaker ≠ sp
      · rw [if_pos h]
        simp [ih]
      · rw [if_neg h, ih]
        simp

theorem runs_flatten (l : List AttributedWord) : (runs l).flatten = l := by
  cases l with
  | nil => rfl
  | cons w rest => simpa using runsLoop_flatten rest w.speaker [w]

theorem runsLoop_ne_nil :
    ∀ (rest : List AttributedWord) (sp : String) (cur : List AttributedWord),
      cur ≠ [] → ∀ r ∈ runsLoop sp cur rest, r ≠ [] := by
  intro rest
  induction rest with
  | nil =>
      intro sp cur hcur r hr
      rcases List.mem_singleton.1 hr with rfl
      exact hcur
  | cons w rest ih =>
      intro sp cur hcur r hr
      unfold runsLoop at hr
      by_cases h : w.speaker ≠ sp
      · rw [if_pos h] at hr
        rcases List.mem_cons.1 hr with rfl | hr2
        · exact hcur
        · exact ih w.speaker [w] (by simp) r hr2
      · rw [if_neg h] at hr
        exact ih sp (cur ++ [w]) (by simp) r hr

theorem runsLoop_uniform :
    ∀ (rest : List AttributedWord) (sp : String) (cur : List AttributedWord),
      (∀ x ∈ cur, x.speaker = sp) →
      ∀ r ∈ runsLoop sp cur rest, ∃ s, ∀ x ∈ r, x.speaker = s := by
  intro rest
  induction rest with
  | nil =>
      intro sp cur hcur r hr
      rcases List.mem_singleton.1 hr with rfl
      exact ⟨sp, hcur⟩
  | cons w rest ih =>
      intro sp cur hcur r hr
      unfold runsLoop at hr
      by_cases h : w.speaker ≠ sp
      · rw [if_pos h] at hr
        rcases List.mem_cons.1 hr with rfl | hr2
        · exact ⟨sp, hcur⟩
        · exact ih w.speaker [w] (by simp) r hr2
      · rw [if_neg h] at hr
        refine ih sp (cur ++ [w]) ?_ r hr
        intro x hx
        rcases List.mem_append.1 hx with hx1 | hx1
        · exact hcur x hx1
        · rcases List.mem_singleton.1 hx1 with rfl
          exact not_not.1 h

theorem all_eq_headD {r : List AttributedWord} {s : String}
    (h : ∀ x ∈ r, x.speaker = s) :
    ∀ x ∈ r, x.speaker = (r.headD default).speaker := by
  cases r with
  | nil => simp
  | cons a rest =>
      intro x hx
      rw [h x hx, List.headD_cons, h a (List.mem_cons_self _ _)]

/-! ## `list(set(...))` of the selected speakers -/

theorem distinctSpeakers_eq_singleton {l : List String} {s : String}
    (hne : l ≠ []) (h : ∀ x ∈ l, x = s) : distinctSpeakers l = [s] := by
  induction l with
  | nil => exact absurd rfl hne
  | cons a rest ih =>
      have ha : a = s := h a (List.mem_cons_self _ _)
      cases rest with
      | nil => simp [distinctSpeakers, ha]
      | cons b rest2 =>
          have hrec : distinctSpeakers (b :: rest2) = [s] :=
            ih (by simp) fun x hx => h x (List.mem_cons_of_mem _ hx)
          have hstep : distinctSpeakers (a :: b :: rest2) =
              if a ∈ distinctSpeakers (b :: rest2) then
                distinctSpeakers (b :: rest2)
              else a :: distinctSpeakers (b :: rest2) := rfl
          rw [hstep, hrec, ha]
          simp

/-! ## Per-entry shapes of the hybrid walk -/

theorem processEntry_of_empty (ws : List AttributedWord) (e : Entry)
    (h : selectWords ws e.start e.«end» = []) :
    processEntry ws e = [.copy e "Unknown"] := by
  simp [processEntry, h]

theorem processEntry_of_single (ws : List AttributedWord) (e : Entry)
    (sp : String) (h1 : selectWords ws e.start e.«end» ≠ [])
    (h2 : ∀ w ∈ selectWords ws e.start e.«end», w.speaker = sp) :
    processEntry ws e = [.copy e sp] := by
  have hmapne : (selectWords ws e.start e.«end»).map
      (fun w => w.speaker) ≠ [] := by
    simpa using h1
  have hd : distinctSpeakers ((selectWords ws e.start e.«end»).map
      (fun w => w.speaker)) = [sp] := by
    refine distinctSpeakers_eq_singleton hmapne fun x hx => ?_
    rcases List.mem_map.1 hx with ⟨w, hw, rfl⟩
    exact h2 w hw
  simp [processEntry, h1, hd]

theorem processEntry_of_split (ws : List AttributedWord) (e : Entry)
    (h1 : selectWords ws e.start e.«end» ≠ [])
    (h2 : (distinctSpeakers ((selectWords ws e.start e.«end»).map
      (fun w => w.speaker))).length ≠ 1) :
    processEntry ws e = (runs (selectWords ws e.start e.«end»)).map runToEntry := by
  simp [processEntry, h1, h2]

theorem flatMap_eq_map_of_singletons {α β : Type} (t : List α)
    (f : α → List β) (g : α → β) (h : ∀ e ∈ t, f e = [g e]) :
    t.flatMap f = t.map g := by
  induction t with
  | nil => rfl
  | cons e rest ih =>
      rw [List.flatMap_cons, h e (List.mem_cons_self _ _),
        ih fun x hx => h x (List.mem_cons_of_mem _ hx)]
      rfl

/-! ## The heuristic path on transcriber-shaped entries -/

theorem heuristicLoop_const :
    ∀ (t : List Entry) (sp : String),
      heuristicLoop sp 0 t = t.map (fun e => .copy e sp) := by
  intro t
  induction t with
  | nil => intro sp; rfl
  | cons e rest ih =>
      intro sp
      have hc : ¬((2:ℚ) < 0 - 0) := by norm_num
      unfold heuristicLoop
      simp only [hc, if_neg, ite_false, add_zero, List.map_cons]
      rw [ih sp]

theorem heuristicDiarization_eq (t : List Entry) :
    heuristicDiarization t = t.map (fun e => .copy e "Speaker 1") :=
  heuristicLoop_const t _

/-! ## All turns carrying one label -/

theorem assignSpeaker_eq_of_all {segments : List DiarizationTurn} {L : String}
    (hne : segments ≠ []) (hall : ∀ t ∈ segments, t.speaker = L)
    (wS wE : ℚ) : assignSpeaker segments wS wE = L := by
  unfold assignSpeaker
  cases hov : pyMaxBySnd (speakerOverlaps wS wE segments) with
  | some p =>
      have hne2 : speakerOverlaps wS wE segments ≠ [] := by
        intro hnil
        rw [hnil] at hov
        exact Option.noConfusion hov
      rcases pyMaxBySnd_spec hne2 with ⟨r, l₁, l₂, hmax, hdec, _, _⟩
      rw [hov] at hmax
      have hrp : p = r := Option.some.inj hmax
      have hpm : p ∈ speakerOverlaps wS wE segments := by
        rw [hdec, hrp]
        exact List.mem_append_right _ (List.mem_cons_self _ _)
      rw [speakerOverlaps_eq] at hpm
      rcases List.mem_map.1 hpm with ⟨s, hs, hsp⟩
      rcases mem_positiveSpeakers.1 hs with ⟨t, ht, hts, _⟩
      show p.1 = L
      have hps : p.1 = s := by rw [← hsp]
      rw [hps, ← hts]
      exact hall t ht
  | none =>
      cases segments with
      | nil => exact absurd rfl hne
      | cons t rest =>
          rcases nearestFold_spec ((wS + wE) / 2) rest
              (|(wS + wE) / 2 - (t.start + t.«end») / 2|) t.speaker with
            ⟨d, s, heq, horig, _, _⟩
          have hns : nearestSpeaker ((wS + wE) / 2) (t :: rest) = s := by
            unfold nearestSpeaker
            rw [List.foldl_cons, nearestStep_none, heq]
          rw [hns]
          rcases horig with ⟨_, hs1⟩ | ⟨u, hu, _, hsu⟩
          · exact hs1 ▸ hall t (List.mem_cons_self _ _)
          · exact hsu ▸ hall u (List.mem_cons_of_mem _ hu)

/-- Claim C3, amended: when all diarization turns share one speaker label
(and the turn sequence is non-empty), the hybrid segmenter never splits:
it emits exactly one `OutputSegment` per entry, each a verbatim copy of
its source entry; the copy is tagged with the shared label whenever at
least one attributed word strictly overlaps the entry, and with
`"Unknown"` when no attributed word overlaps it (the case the original
claim overlooked). -/
theorem c3_single_speaker_idempotence (transcript : List Entry)
    (segments : List DiarizationTurn) (L : String)
    (hne : segments ≠ []) (hall : ∀ t ∈ segments, t.speaker = L) :
    wordLevelDiarization transcript segments =
      transcript.map (fun e =>
        .copy e
          (if selectWords (wordSpeakers transcript segments) e.start e.«end» = []
            then "Unknown" else L)) := by
  unfold wordLevelDiarization
  refine flatMap_eq_map_of_singletons _ _ _ fun e _ => ?_
  by_cases hsel :
    selectWords (wordSpeakers transcript segments) e.start e.«end» = []
  · rw [processEntry_of_empty _ _ hsel, if_pos hsel]
  · rw [if_neg hsel]
    refine processEntry_of_single _ _ L hsel fun w hw => ?_
    unfold selectWords at hw
    have hw2 : w ∈ wordSpeakers transcript segments := List.mem_of_mem_filter hw
    rcases List.mem_map.1 hw2 with ⟨w₀, _, rfl⟩
    exact assignSpeaker_eq_of_all hne hall _ _

/-- Witness for C3 (amended) at scenario A: one segment `(0,4)` with two
words, one turn `(0,4,"S1")`. -/
theorem c3_witness :
    (([DiarizationTurn.mk 0 4 "S1"] : List DiarizationTurn) ≠ []) ∧
      (∀ t ∈ [DiarizationTurn.mk 0 4 "S1"], t.speaker = "S1") ∧
      wordLevelDiarization
          [⟨0, 4, "hello there", 0, [⟨"hello", 0, 2, 0⟩, ⟨" there", 2, 4, 0⟩], ""⟩]
          [DiarizationTurn.mk 0 4 "S1"] =
        ([⟨0, 4, "hello there", 0, [⟨"hello", 0, 2, 0⟩, ⟨" there", 2, 4, 0⟩], ""⟩] :
            List Entry).map
          (fun e =>
            .copy e
              (if selectWords
                  (wordSpeakers
                    [⟨0, 4, "hello there", 0, [⟨"hello", 0, 2, 0⟩, ⟨" there", 2, 4, 0⟩], ""⟩]
                    [DiarizationTurn.mk 0 4 "S1"]) e.start e.«end» = []
                then "Unknown" else "S1")) :=
  ⟨of_decide_eq_true (by with_unfolding_all rfl),
    of_decide_eq_true (by with_unfolding_all rfl),
    c3_single_speaker_idempotence _ _ "S1"
      (of_decide_eq_true (by with_unfolding_all rfl))
      (of_decide_eq_true (by with_unfolding_all rfl))⟩

/-- Counterexample to C3 as stated: all turns share the label `"S1"` and
the word-level hybrid runs, yet the zero-width wordless entry `(2,2)` is
emitted with speaker `"Unknown"`, not `"S1"` — so not every
`OutputSegment` equals its source tagged with the shared speaker. -/
theorem c3_counterexample :
    (([DiarizationTurn.mk 0 3 "S1"] : List DiarizationTurn) ≠ []) ∧
      (∀ t ∈ [DiarizationTurn.mk 0 3 "S1"], t.speaker = "S1") ∧
      hasWords [⟨0, 1, "a", 0, [⟨"a", 0, 1, 0⟩], ""⟩, ⟨2, 2, "b", 0, [], ""⟩] = true ∧
      diarizeTranscript
          [⟨0, 1, "a", 0, [⟨"a", 0, 1, 0⟩], ""⟩, ⟨2, 2, "b", 0, [], ""⟩]
          [DiarizationTurn.mk 0 3 "S1"] =
        wordLevelDiarization
          [⟨0, 1, "a", 0, [⟨"a", 0, 1, 0⟩], ""⟩, ⟨2, 2, "b", 0, [], ""⟩]
          [DiarizationTurn.mk 0 3 "S1"] ∧
      (wordLevelDiarization
          [⟨0, 1, "a", 0, [⟨"a", 0, 1, 0⟩], ""⟩, ⟨2, 2, "b", 0, [], ""⟩]
          [DiarizationTurn.mk 0 3 "S1"]).map OutEntry.speaker =
        ["S1", "Unknown"] ∧
      ("Unknown" : String) ≠ "S1" :=
  ⟨of_decide_eq_true (by with_unfolding_all rfl),
    of_decide_eq_true (by with_unfolding_all rfl),
    of_decide_eq_true (by with_unfolding_all rfl),
    of_decide_eq_true (by with_unfolding_all rfl),
    of_decide_eq_true (by with_unfolding_all rfl),
    of_decide_eq_true (by with_unfolding_all rfl)⟩

/-- Claim C4, amended: whenever the hybrid segmenter splits a segment, the
emitted `OutputSegment`s are exactly the maximal same-speaker runs of the
selected attributed words, in order; each has the run's speaker, start of
the run's first word, end of the run's last word, the run itself as
contributing words, and as text the separator-free concatenation of the
run's word tokens *stripped of leading/trailing whitespace* (the `strip()`
the original claim omitted); flattening the runs reproduces the selected
word sequence with nothing reordered or dropped. -/
theorem c4_split_reconstruction (ws : List AttributedWord) (e : Entry)
    (h1 : selectWords ws e.start e.«end» ≠ [])
    (h2 : (distinctSpeakers ((selectWords ws e.start e.«end»).map
      (fun w => w.speaker))).length ≠ 1) :
    processEntry ws e =
        (runs (selectWords ws e.start e.«end»)).map runToEntry ∧
      (runs (selectWords ws e.start e.«end»)).flatten =
        selectWords ws e.start e.«end» ∧
      ∀ r ∈ runs (selectWords ws e.start e.«end»),
        r ≠ [] ∧
        (runToEntry r).speaker = (r.headD default).speaker ∧
        (runToEntry r).start = (r.headD default).start ∧
        (runToEntry r).endT = (r.getLastD default).«end» ∧
        (runToEntry r).text =
          pyStrip (String.join (r.map (fun w => w.word))) ∧
        (runToEntry r).wordKeys = r.map awKey ∧
        ∀ x ∈ r, x.speaker = (r.headD default).speaker := by
  refine ⟨processEntry_of_split ws e h1 h2, runs_flatten _, ?_⟩
  intro r hr
  rcases hsel : selectWords ws e.start e.«end» with _ | ⟨w, rest⟩
  · exact absurd hsel h1
  · rw [hsel] at hr
    unfold runs at hr
    have hne : r ≠ [] :=
      runsLoop_ne_nil rest w.speaker [w] (by simp) r hr
    rcases runsLoop_uniform rest w.speaker [w]
        (by intro x hx; rcases List.mem_singleton.1 hx with rfl; rfl) r hr with
      ⟨s, huni⟩
    exact ⟨hne, rfl, rfl, rfl, rfl, rfl, all_eq_headD huni⟩

/-- Witness for C4 (amended): segment `(0,4)` with words `" hi"` and
`" bob"` split across turns `(0,2,"S1")`, `(2,4,"S2")`. -/
theorem c4_witness :
    (selectWords
        (wordSpeakers [⟨0, 4, "hi bob", 0, [⟨" hi", 0, 2, 0⟩, ⟨" bob", 2, 4, 0⟩], ""⟩]
          [DiarizationTurn.mk 0 2 "S1", DiarizationTurn.mk 2 4 "S2"])
        (0:ℚ) 4 ≠ []) ∧
      ((distinctSpeakers ((selectWords
          (wordSpeakers [⟨0, 4, "hi bob", 0, [⟨" hi", 0, 2, 0⟩, ⟨" bob", 2, 4, 0⟩], ""⟩]
            [DiarizationTurn.mk 0 2 "S1", DiarizationTurn.mk 2 4 "S2"])
          (0:ℚ) 4).map (fun w => w.speaker))).length ≠ 1) ∧
      ((runs (selectWords
          (wordSpeakers [⟨0, 4, "hi bob", 0, [⟨" hi", 0, 2, 0⟩, ⟨" bob", 2, 4, 0⟩], ""⟩]
            [DiarizationTurn.mk 0 2 "S1", DiarizationTurn.mk 2 4 "S2"])
          (0:ℚ) 4)).flatten =
        selectWords
          (wordSpeakers [⟨0, 4, "hi bob", 0, [⟨" hi", 0, 2, 0⟩, ⟨" bob", 2, 4, 0⟩], ""⟩]
            [DiarizationTurn.mk 0 2 "S1", DiarizationTurn.mk 2 4 "S2"])
          (0:ℚ) 4) := by
  have h1 : selectWords
      (wordSpeakers [⟨0, 4, "hi bob", 0, [⟨" hi", 0, 2, 0⟩, ⟨" bob", 2, 4, 0⟩], ""⟩]
        [DiarizationTurn.mk 0 2 "S1", DiarizationTurn.mk 2 4 "S2"])
      (0:ℚ) 4 ≠ [] := of_decide_eq_true (by with_unfolding_all rfl)
  have h2 : (distinctSpeakers ((selectWords
      (wordSpeakers [⟨0, 4, "hi bob", 0, [⟨" hi", 0, 2, 0⟩, ⟨" bob", 2, 4, 0⟩], ""⟩]
        [DiarizationTurn.mk 0 2 "S1", DiarizationTurn.mk 2 4 "S2"])
      (0:ℚ) 4).map (fun w => w.speaker))).length ≠ 1 :=
    of_decide_eq_true (by with_unfolding_all rfl)
  have h := c4_split_reconstruction
    (wordSpeakers [⟨0, 4, "hi bob", 0, [⟨" hi", 0, 2, 0⟩, ⟨" bob", 2, 4, 0⟩], ""⟩]
      [DiarizationTurn.mk 0 2 "S1", DiarizationTurn.mk 2 4 "S2"])
    ⟨0, 4, "hi bob", 0, [⟨" hi", 0, 2, 0⟩, ⟨" bob", 2, 4, 0⟩], ""⟩ h1 h2
  exact ⟨h1, h2, h.2.1⟩

/-- Counterexample to C4 as stated: in the split of segment `(0,4)` with
word tokens `" hi"` and `" bob"` (carrying their leading whitespace, as
recognizer tokens do), the first emitted sub-segment's text is `"hi"`,
which is *not* the separator-free concatenation `" hi"` of its run's word
tokens — the code strips the concatenation. -/
theorem c4_counterexample :
    (wordLevelDiarization
        [⟨0, 4, "hi bob", 0, [⟨" hi", 0, 2, 0⟩, ⟨" bob", 2, 4, 0⟩], ""⟩]
        [DiarizationTurn.mk 0 2 "S1", DiarizationTurn.mk 2 4 "S2"]).map
        OutEntry.text = ["hi", "bob"] ∧
      ((wordLevelDiarization
          [⟨0, 4, "hi bob", 0, [⟨" hi", 0, 2, 0⟩, ⟨" bob", 2, 4, 0⟩], ""⟩]
          [DiarizationTurn.mk 0 2 "S1", DiarizationTurn.mk 2 4 "S2"]).map
          (fun o => String.join (o.wordKeys.map (fun k => k.1)))) =
        [" hi", " bob"] ∧
      ("hi" : String) ≠ " hi" :=
  ⟨of_decide_eq_true (by with_unfolding_all rfl),
    of_decide_eq_true (by with_unfolding_all rfl),
    of_decide_eq_true (by with_unfolding_all rfl)⟩

/-- Witness for C9: extending the turn `(0,2,"S1")` to end `3` for the word
`(0,1)`. -/
theorem c9_witness :
    ((DiarizationTurn.mk 0 2 "S1").«end» ≤ (3:ℚ)) ∧
      (0 < overlapDuration (0:ℚ) 1 (DiarizationTurn.mk 0 2 "S1").start
        (DiarizationTurn.mk 0 2 "S1").«end») ∧
      accumulatedOverlap (0:ℚ) 1 ([] ++ DiarizationTurn.mk 0 2 "S1" :: [])
          (DiarizationTurn.mk 0 2 "S1").speaker ≤
        accumulatedOverlap (0:ℚ) 1
          ([] ++ { DiarizationTurn.mk 0 2 "S1" with «end» := 3 } :: [])
          (DiarizationTurn.mk 0 2 "S1").speaker :=
  ⟨of_decide_eq_true (by with_unfolding_all rfl),
    of_decide_eq_true (by with_unfolding_all rfl),
    c9_overlap_monotonicity.2 ⟨"w", 0, 1, 0⟩ [] [] (DiarizationTurn.mk 0 2 "S1") 3
      (of_decide_eq_true (by with_unfolding_all rfl))
      (of_decide_eq_true (by with_unfolding_all rfl))⟩

/-- Claim C5 (the heuristic diarizer evaluated on transcriber-shaped
entries): on entries of the `formatted_segments` shape the loop reads the
absent keys `start_time` and `chunk_duration` as `0`, so the computed gap
is always `0` and the label never toggles — every entry, including the
second segment of scenario C (`(0,2)` then `(5,7)`, gap `3s > 2s`),
receives `"Speaker 1"`, contradicting the claimed toggle. -/
theorem c5_heuristic_gap_evaluation :
    diarizeTranscript [⟨0, 2, "a", 0, [], ""⟩, ⟨5, 7, "b", 0, [], ""⟩] [] =
        heuristicDiarization [⟨0, 2, "a", 0, [], ""⟩, ⟨5, 7, "b", 0, [], ""⟩] ∧
      (heuristicDiarization
          [⟨0, 2, "a", 0, [], ""⟩, ⟨5, 7, "b", 0, [], ""⟩]).map
          OutEntry.speaker = ["Speaker 1", "Speaker 1"] ∧
      ∀ t : List Entry,
        heuristicDiarization t = t.map (fun e => .copy e "Speaker 1") :=
  ⟨of_decide_eq_true (by with_unfolding_all rfl),
    of_decide_eq_true (by with_unfolding_all rfl),
    heuristicDiarization_eq⟩

/-- Claim C6 (top-level dispatch): with pre-computed diarization segments,
exactly one of the three strategies produces the result: the heuristic
when the turn list is empty, the word-level hybrid when turns are present
and some entry has word data, and the segment-level fallback when turns
are present and no entry has word data — with no blending. -/
theorem c6_dispatch (transcript : List Entry)
    (segments : List DiarizationTurn) :
    (segments = [] →
        diarizeTranscript transcript segments =
          heuristicDiarization transcript) ∧
      (segments ≠ [] → hasWords transcript = true →
        diarizeTranscript transcript segments =
          wordLevelDiarization transcript segments) ∧
      (segments ≠ [] → hasWords transcript = false →
        diarizeTranscript transcript segments =
          segmentLevelDiarization transcript segments) := by
  by_cases ht : transcript = []
  · subst ht
    refine ⟨fun hs => ?_, fun hs hw => ?_, fun hs hw => ?_⟩
    · simp [diarizeTranscript, heuristicDiarization, heuristicLoop]
    · simp [hasWords] at hw
    · simp [diarizeTranscript, segmentLevelDiarization]
  · refine ⟨fun hs => ?_, fun hs hw => ?_, fun hs hw => ?_⟩
    · simp [diarizeTranscript, ht, hs]
    · simp [diarizeTranscript, ht, hs, hw]
    · simp [diarizeTranscript, ht, hs, hw]

/-- Witness for C6: one entry with word data and one non-empty turn list
take the word-level branch. -/
theorem c6_witness :
    (([DiarizationTurn.mk 0 1 "S1"] : List DiarizationTurn) ≠ []) ∧
      hasWords [⟨0, 1, "a", 0, [⟨"a", 0, 1, 0⟩], ""⟩] = true ∧
      diarizeTranscript [⟨0, 1, "a", 0, [⟨"a", 0, 1, 0⟩], ""⟩]
          [DiarizationTurn.mk 0 1 "S1"] =
        wordLevelDiarization [⟨0, 1, "a", 0, [⟨"a", 0, 1, 0⟩], ""⟩]
          [DiarizationTurn.mk 0 1 "S1"] :=
  ⟨of_decide_eq_true (by with_unfolding_all rfl),
    of_decide_eq_true (by with_unfolding_all rfl),
    (c6_dispatch [⟨0, 1, "a", 0, [⟨"a", 0, 1, 0⟩], ""⟩]
        [DiarizationTurn.mk 0 1 "S1"]).2.1
      (of_decide_eq_true (by with_unfolding_all rfl))
      (of_decide_eq_true (by with_unfolding_all rfl))⟩

/-- Claim C8 (segment-level fallback): every entry is copied with the speaker
of maximal per-speaker accumulated overlap against the entry's own
interval, and an entry overlapping no turn is tagged exactly `"Unknown"`
with no nearest-neighbor rescue (the computation is total — no error
path exists). -/
theorem c8_segment_level_fallback (transcript : List Entry)
    (segments : List DiarizationTurn) :
    segmentLevelDiarization transcript segments =
        transcript.map
          (fun e => .copy e (segmentBestSpeaker segments e.start e.«end»)) ∧
      (∀ eS eE : ℚ,
        (∀ t ∈ segments, overlapDuration eS eE t.start t.«end» ≤ 0) →
        segmentBestSpeaker segments eS eE = "Unknown") ∧
      (∀ eS eE : ℚ,
        (∃ t ∈ segments, 0 < overlapDuration eS eE t.start t.«end») →
        0 < accumulatedOverlap eS eE segments
            (segmentBestSpeaker segments eS eE) ∧
          ∀ s, accumulatedOverlap eS eE segments s ≤
            accumulatedOverlap eS eE segments
              (segmentBestSpeaker segments eS eE)) := by
  refine ⟨rfl, ?_, ?_⟩
  · intro eS eE hno
    have hov : speakerOverlaps eS eE segments = [] := by
      rw [speakerOverlaps_eq, positiveSpeakers_eq_nil hno]
      rfl
    unfold segmentBestSpeaker
    rw [hov]
    rfl
  · intro eS eE hpos
    rcases bestOverlap_spec eS eE segments hpos with ⟨r, hmax, hposr, hle, _⟩
    have hbs : segmentBestSpeaker segments eS eE = r.1 := by
      unfold segmentBestSpeaker
      rw [hmax]
    rw [hbs]
    exact ⟨hposr, hle⟩

/-- Witness for C8: entry interval `(10,11)` against the single turn
`(0,5,"S1")` overlaps nothing and is tagged `"Unknown"`; interval `(0,1)`
overlaps it and gets the maximal-overlap speaker. -/
theorem c8_witness :
    (∀ t ∈ [DiarizationTurn.mk 0 5 "S1"],
        overlapDuration (10:ℚ) 11 t.start t.«end» ≤ 0) ∧
      segmentBestSpeaker [DiarizationTurn.mk 0 5 "S1"] 10 11 = "Unknown" ∧
      (∃ t ∈ [DiarizationTurn.mk 0 5 "S1"],
        0 < overlapDuration (0:ℚ) 1 t.start t.«end») ∧
      (0 < accumulatedOverlap (0:ℚ) 1 [DiarizationTurn.mk 0 5 "S1"]
          (segmentBestSpeaker [DiarizationTurn.mk 0 5 "S1"] 0 1) ∧
        ∀ s, accumulatedOverlap (0:ℚ) 1 [DiarizationTurn.mk 0 5 "S1"] s ≤
          accumulatedOverlap (0:ℚ) 1 [DiarizationTurn.mk 0 5 "S1"]
            (segmentBestSpeaker [DiarizationTurn.mk 0 5 "S1"] 0 1)) :=
  ⟨of_decide_eq_true (by with_unfolding_all rfl),
    (c8_segment_level_fallback [] [DiarizationTurn.mk 0 5 "S1"]).2.1 10 11
      (of_decide_eq_true (by with_unfolding_all rfl)),
    of_decide_eq_true (by with_unfolding_all rfl),
    (c8_segment_level_fallback [] [DiarizationTurn.mk 0 5 "S1"]).2.2 0 1
      (of_decide_eq_true (by with_unfolding_all rfl))⟩

/-- Claim C10 (frame property): the heuristic path and the segment-level path
emit exactly one entry per input entry, in input order, each a verbatim
copy of its input with only the `speaker` field set; and on the hybrid
path the empty-selection and single-speaker cases likewise emit exactly
the one verbatim copy of the entry with only the speaker set. -/
theorem c10_frame_preservation :
    (∀ t : List Entry,
        (heuristicDiarization t).length = t.length ∧
        ∀ (i : ℕ) (e : Entry), t[i]? = some e →
          ∃ sp, (heuristicDiarization t)[i]? = some (.copy e sp)) ∧
      (∀ (t : List Entry) (segments : List DiarizationTurn),
        (segmentLevelDiarization t segments).length = t.length ∧
        ∀ (i : ℕ) (e : Entry), t[i]? = some e →
          ∃ sp, (segmentLevelDiarization t segments)[i]? = some (.copy e sp)) ∧
      (∀ (ws : List AttributedWord) (e : Entry),
        (selectWords ws e.start e.«end» = [] →
          processEntry ws e = [.copy e "Unknown"]) ∧
        (∀ sp, selectWords ws e.start e.«end» ≠ [] →
          (∀ w ∈ selectWords ws e.start e.«end», w.speaker = sp) →
          processEntry ws e = [.copy e sp])) := by
  refine ⟨?_, ?_, ?_⟩
  · intro t
    rw [heuristicDiarization_eq]
    refine ⟨List.length_map _ _, ?_⟩
    intro i e he
    exact ⟨"Speaker 1", by rw [List.getElem?_map, he]; rfl⟩
  · intro t segments
    unfold segmentLevelDiarization
    refine ⟨List.length_map _ _, ?_⟩
    intro i e he
    exact ⟨segmentBestSpeaker segments e.start e.«end»,
      by rw [List.getElem?_map, he]; rfl⟩
  · intro ws e
    exact ⟨processEntry_of_empty ws e,
      fun sp h1 h2 => processEntry_of_single ws e sp h1 h2⟩

/-- Witness for C10: the hybrid empty-selection case at a concrete entry
(the parts about the heuristic and segment-level paths are
hypothesis-free). -/
theorem c10_witness :
    selectWords [] (0:ℚ) 1 = [] ∧
      processEntry [] ⟨0, 1, "a", 0, [], ""⟩ =
        [.copy ⟨0, 1, "a", 0, [], ""⟩ "Unknown"] :=
  ⟨of_decide_eq_true (by with_unfolding_all rfl),
    (c10_frame_preservation.2.2 [] ⟨0, 1, "a", 0, [], ""⟩).1
      (of_decide_eq_true (by with_unfolding_all rfl))⟩

/-! ## Word coverage (C2) -/

theorem attributeWord_key (segments : List DiarizationTurn) (w : Word) :
    awKey (attributeWord segments w) = wordKey w := rfl

theorem allWords_of_all_have_words {t : List Entry}
    (hw : ∀ e ∈ t, e.words ≠ []) :
    allWords t = t.flatMap (fun e => e.words) := by
  induction t with
  | nil => rfl
  | cons e rest ih =>
      unfold allWords
      rw [List.flatMap_cons, if_pos (hw e (List.mem_cons_self _ _))]
      rw [List.flatMap_cons]
      congr 1
      exact ih fun x hx => hw x (List.mem_cons_of_mem _ hx)

theorem selectWords_append (ws₁ ws₂ : List AttributedWord) (eS eE : ℚ) :
    selectWords (ws₁ ++ ws₂) eS eE =
      selectWords ws₁ eS eE ++ selectWords ws₂ eS eE :=
  List.filter_append _ _

theorem selectWords_eq_nil_of_no_overlap {l : List Word}
    (segments : List DiarizationTurn) {eS eE : ℚ}
    (h : ∀ w ∈ l, ¬(eS < w.«end» ∧ w.start < eE)) :
    selectWords (l.map (attributeWord segments)) eS eE = [] := by
  unfold selectWords
  rw [List.filter_eq_nil_iff]
  intro aw haw
  rcases List.mem_map.1 haw with ⟨w, hwmem, rfl⟩
  have := h w hwmem
  simp only [attributeWord, Bool.and_eq_true, decide_eq_true_eq]
  exact fun hc => this hc

theorem selectWords_eq_self_of_overlap {l : List Word}
    (segments : List DiarizationTurn) {eS eE : ℚ}
    (h : ∀ w ∈ l, eS < w.«end» ∧ w.start < eE) :
    selectWords (l.map (attributeWord segments)) eS eE =
      l.map (attributeWord segments) := by
  unfold selectWords
  rw [List.filter_eq_self]
  intro aw haw
  rcases List.mem_map.1 haw with ⟨w, hwmem, rfl⟩
  have := h w hwmem
  simp only [attributeWord, Bool.and_eq_true, decide_eq_true_eq]
  exact this

/-- The per-entry selection of the hybrid walk recovers exactly the
entry's own (attributed) words when every word strictly overlaps its own
entry and no word of any other entry overlaps this one. -/
theorem selection_of_entry (segments : List DiarizationTurn)
    (A B : List Entry) (e : Entry)
    (hw : ∀ x ∈ A ++ e :: B, x.words ≠ [])
    (hself : ∀ w ∈ e.words, e.start < w.«end» ∧ w.start < e.«end»)
    (hA : ∀ a ∈ A, ∀ w ∈ a.words, ¬(e.start < w.«end» ∧ w.start < e.«end»))
    (hB : ∀ b ∈ B, ∀ w ∈ b.words, ¬(e.start < w.«end» ∧ w.start < e.«end»)) :
    selectWords (wordSpeakers (A ++ e :: B) segments) e.start e.«end» =
      e.words.map (attributeWord segments) := by
  unfold wordSpeakers
  rw [allWords_of_all_have_words hw]
  rw [List.flatMap_append, List.flatMap_cons, List.map_append, List.map_append,
    selectWords_append, selectWords_append]
  rw [selectWords_eq_self_of_overlap segments hself]
  have hAnil : selectWords ((A.flatMap fun e => e.words).map
      (attributeWord segments)) e.start e.«end» = [] := by
    refine selectWords_eq_nil_of_no_overlap segments ?_
    intro w hwmem
    rcases List.mem_flatMap.1 hwmem with ⟨a, ha, hwa⟩
    exact hA a ha w hwa
  have hBnil : selectWords ((B.flatMap fun e => e.words).map
      (attributeWord segments)) e.start e.«end» = [] := by
    refine selectWords_eq_nil_of_no_overlap segments ?_
    intro w hwmem
    rcases List.mem_flatMap.1 hwmem with ⟨b, hb, hwb⟩
    exact hB b hb w hwb
  rw [hAnil, hBnil]
  simp

theorem mem_distinctSpeakers {l : List String} {s : String} :
    s ∈ distinctSpeakers l ↔ s ∈ l := by
  induction l with
  | nil => simp [distinctSpeakers]
  | cons a rest ih =>
      have hstep : distinctSpeakers (a :: rest) =
          if a ∈ distinctSpeakers rest then distinctSpeakers rest
          else a :: distinctSpeakers rest := rfl
      rw [hstep]
      by_cases ha : a ∈ distinctSpeakers rest
      · rw [if_pos ha, ih]
        constructor
        · exact fun h => List.mem_cons_of_mem _ h
        · intro h
          rcases List.mem_cons.1 h with rfl | h2
          · exact ih.1 ha
          · exact h2
      · rw [if_neg ha]
        simp [ih]

/-- Whatever case the per-entry walk takes, when its selection is exactly
the entry's own attributed words and the entry has word data, the word
keys contributed by the emitted entries are exactly the entry's word
keys, in order. -/
theorem processEntry_keys (segments : List DiarizationTurn)
    (ws : List AttributedWord) (e : Entry) (hwne : e.words ≠ [])
    (hsel : selectWords ws e.start e.«end» = e.words.map (attributeWord segments)) :
    ((processEntry ws e).map OutEntry.wordKeys).flatten =
      e.words.map wordKey := by
  have hselne : selectWords ws e.start e.«end» ≠ [] := by
    rw [hsel]
    simpa using hwne
  by_cases hlen :
    (distinctSpeakers ((selectWords ws e.start e.«end»).map
      (fun w => w.speaker))).length = 1
  · rcases hd : distinctSpeakers ((selectWords ws e.start e.«end»).map
        (fun w => w.speaker)) with _ | ⟨sp, rest⟩
    · rw [hd] at hlen
      simp at hlen
    · rcases rest with _ | ⟨b, rest2⟩
      · have hall : ∀ w ∈ selectWords ws e.start e.«end», w.speaker = sp := by
          intro w hwmem
          have hmem : w.speaker ∈ distinctSpeakers
              ((selectWords ws e.start e.«end»).map (fun w => w.speaker)) :=
            mem_distinctSpeakers.2 (List.mem_map_of_mem _ hwmem)
          rw [hd] at hmem
          exact List.mem_singleton.1 hmem
        rw [processEntry_of_single ws e sp hselne hall]
        simp [OutEntry.wordKeys]
      · rw [hd] at hlen
        simp at hlen
  · rw [processEntry_of_split ws e hselne hlen]
    rw [List.map_map]
    have hcomp : (OutEntry.wordKeys ∘ runToEntry) = List.map awKey := by
      funext r
      rfl
    rw [hcomp, ← List.map_flatten, runs_flatten, hsel, List.map_map]
    rfl

theorem flatMap_keys (t : List Entry) (f : Entry → List OutEntry)
    (h : ∀ e ∈ t, ((f e).map OutEntry.wordKeys).flatten = e.words.map wordKey) :
    ((t.flatMap f).map OutEntry.wordKeys).flatten =
      (t.map (fun e => e.words.map wordKey)).flatten := by
  induction t with
  | nil => rfl
  | cons e rest ih =>
      rw [List.flatMap_cons, List.map_append, List.flatten_append,
        h e (List.mem_cons_self _ _), List.map_cons, List.flatten_cons,
        ih fun x hx => h x (List.mem_cons_of_mem _ hx)]

/-- Claim C2, amended: word coverage holds under the intended interval
discipline — every segment carries word data, each word strictly overlaps
its own segment's interval, and no word overlaps any other segment's
interval.  Then the concatenated contributing word lists of the hybrid
output are exactly the input's words in order, so every input word
appears in exactly one `OutputSegment`'s contributing word list (the same
count in input and output, for every word).  Without the no-cross-overlap
condition the claim fails (see the counterexample). -/
theorem c2_word_coverage (t : List Entry) (segments : List DiarizationTurn)
    (hw : ∀ e ∈ t, e.words ≠ [])
    (hself : ∀ e ∈ t, ∀ w ∈ e.words, e.start < w.«end» ∧ w.start < e.«end»)
    (hpair : t.Pairwise (fun a b =>
      (∀ w ∈ a.words, ¬(b.start < w.«end» ∧ w.start < b.«end»)) ∧
      (∀ w ∈ b.words, ¬(a.start < w.«end» ∧ w.start < a.«end»)))) :
    ((wordLevelDiarization t segments).map OutEntry.wordKeys).flatten =
        (t.map (fun e => e.words.map wordKey)).flatten ∧
      ∀ k, (((wordLevelDiarization t segments).map
          OutEntry.wordKeys).flatten).count k =
        ((t.map (fun e => e.words.map wordKey)).flatten).count k := by
  have hmain :
      ((wordLevelDiarization t segments).map OutEntry.wordKeys).flatten =
        (t.map (fun e => e.words.map wordKey)).flatten := by
    unfold wordLevelDiarization
    refine flatMap_keys t _ fun e he => ?_
    rcases List.append_of_mem he with ⟨A, B, ht⟩
    subst ht
    obtain ⟨_, hpB, hAB⟩ := List.pairwise_append.1 hpair
    have hA : ∀ a ∈ A, ∀ w ∈ a.words,
        ¬(e.start < w.«end» ∧ w.start < e.«end») := by
      intro a ha w hw2
      exact (hAB a ha e (List.mem_cons_self _ _)).1 w hw2
    have hB : ∀ b ∈ B, ∀ w ∈ b.words,
        ¬(e.start < w.«end» ∧ w.start < e.«end») := by
      intro b hb w hw2
      exact ((List.pairwise_cons.1 hpB).1 b hb).2 w hw2
    exact processEntry_keys segments _ e (hw e he)
      (selection_of_entry segments A B e hw (hself e he) hA hB)
  exact ⟨hmain, fun k => congrArg (List.count k) hmain⟩

/-- Witness for C2 (amended): two word-bearing entries whose words stay
strictly inside their own entries. -/
theorem c2_witness :
    (∀ e ∈ [(⟨0, 2, " a", 0, [⟨" a", 0, 1, 0⟩], ""⟩ : Entry),
        ⟨2, 4, " c", 0, [⟨" c", 3, 4, 0⟩], ""⟩], e.words ≠ []) ∧
      (∀ e ∈ [(⟨0, 2, " a", 0, [⟨" a", 0, 1, 0⟩], ""⟩ : Entry),
          ⟨2, 4, " c", 0, [⟨" c", 3, 4, 0⟩], ""⟩],
        ∀ w ∈ e.words, e.start < w.«end» ∧ w.start < e.«end») ∧
      (([(⟨0, 2, " a", 0, [⟨" a", 0, 1, 0⟩], ""⟩ : Entry),
          ⟨2, 4, " c", 0, [⟨" c", 3, 4, 0⟩], ""⟩] : List Entry).Pairwise
        (fun a b =>
          (∀ w ∈ a.words, ¬(b.start < w.«end» ∧ w.start < b.«end»)) ∧
          (∀ w ∈ b.words, ¬(a.start < w.«end» ∧ w.start < a.«end»)))) ∧
      ((wordLevelDiarization
          [⟨0, 2, " a", 0, [⟨" a", 0, 1, 0⟩], ""⟩,
            ⟨2, 4, " c", 0, [⟨" c", 3, 4, 0⟩], ""⟩]
          [DiarizationTurn.mk 0 3 "S1", DiarizationTurn.mk 3 4 "S2"]).map
          OutEntry.wordKeys).flatten =
        (([(⟨0, 2, " a", 0, [⟨" a", 0, 1, 0⟩], ""⟩ : Entry),
            ⟨2, 4, " c", 0, [⟨" c", 3, 4, 0⟩], ""⟩] : List Entry).map
          (fun e => e.words.map wordKey)).flatten :=
  ⟨of_decide_eq_true (by with_unfolding_all rfl),
    of_decide_eq_true (by with_unfolding_all rfl),
    by
      refine List.pairwise_cons.2 ⟨?_, List.pairwise_singleton _ _⟩
      intro b hb
      rcases List.mem_singleton.1 hb with rfl
      exact ⟨of_decide_eq_true (by with_unfolding_all rfl),
        of_decide_eq_true (by with_unfolding_all rfl)⟩,
    (c2_word_coverage _ _
      (of_decide_eq_true (by with_unfolding_all rfl))
      (of_decide_eq_true (by with_unfolding_all rfl))
      (by
        refine List.pairwise_cons.2 ⟨?_, List.pairwise_singleton _ _⟩
        intro b hb
        rcases List.mem_singleton.1 hb with rfl
        exact ⟨of_decide_eq_true (by with_unfolding_all rfl),
          of_decide_eq_true (by with_unfolding_all rfl)⟩)).1⟩

/-- Counterexample to C2 as stated: the word `" b"` of segment `(0,2)`
runs past its segment into `(2,4)` (interval `(1,3)`), so it is selected
by both entries — it ends up in the copied first entry's word list *and*
in a split sub-segment of the second entry: its key occurs twice across
the output's contributing word lists while occurring once in the input. -/
theorem c2_counterexample :
    (((wordLevelDiarization
        [⟨0, 2, " a b", 0, [⟨" a", 0, 1, 0⟩, ⟨" b", 1, 3, 0⟩], ""⟩,
          ⟨2, 4, " c", 0, [⟨" c", 3, 4, 0⟩], ""⟩]
        [DiarizationTurn.mk 0 3 "S1", DiarizationTurn.mk 3 4 "S2"]).map
        OutEntry.wordKeys).flatten).count ((" b" : String), (1:ℚ), (3:ℚ)) = 2 ∧
      ((([(⟨0, 2, " a b", 0, [⟨" a", 0, 1, 0⟩, ⟨" b", 1, 3, 0⟩], ""⟩ : Entry),
          ⟨2, 4, " c", 0, [⟨" c", 3, 4, 0⟩], ""⟩] : List Entry).map
        (fun e => e.words.map wordKey)).flatten).count
          ((" b" : String), (1:ℚ), (3:ℚ)) = 1 :=
  ⟨of_decide_eq_true (by with_unfolding_all rfl),
    of_decide_eq_true (by with_unfolding_all rfl)⟩

end QuickQuotes
